import Mathlib

/-!
Verification of the Clarke–Wright savings solver of Project-LogiSwift.

The embedding models the solver phase (Phase 2) of
`get_baseline_solution` in `src/final_baseline_solver.py` and the
module-level merge loop of `src/baseline_solver.py`.

The Python `routes` dictionary (customer index → mutable list object,
several keys sharing one object) is embedded as an arena: `owner`
maps a customer to a route id, `arena` maps a route id to the node
sequence, and `next` is the first unused id.  A fresh Python list
object created by a merge corresponds to a fresh id, so Python's
`id`-based identity tests and `id`-based deduplication correspond to
equality of route ids.  Python's in-place `list.reverse()` calls are
observationally irrelevant because every customer of the reversed
route is re-pointed to the freshly built merged route immediately
afterwards, so the merge body is embedded functionally.
-/

namespace LogiSwift

/-- Travel-cost access `cost[a][b]`; the matrix entries are `int64`
in the source, embedded as `Int`. -/
abbrev Cost := Nat → Nat → Int

/-- Python `l[1]`: the first customer of a route `[0, c1, ..., ck, 0]`.
Out-of-range access cannot occur on a live route (length ≥ 3). -/
def second (l : List Nat) : Nat := l.getD 1 0

/-- Python `l[-2]`: the last customer of a route `[0, c1, ..., ck, 0]`. -/
def secondLast (l : List Nat) : Nat := l.getD (l.length - 2) 0

/-- Python `l[1:-1]`: the customers of a route, depot entries stripped. -/
def interior (l : List Nat) : List Nat := l.tail.dropLast

/-- Python `len(route) - 2`: the load of a route. -/
def load (l : List Nat) : Int := (l.length : Int) - 2

/-- Sum of consecutive arc costs of a route, as computed by
`sum(time_matrix[start, end] for start, end in zip(route, route[1:]))`. -/
def routeCost (c : Cost) : List Nat → Int
  | x :: y :: rest => c x y + routeCost c (y :: rest)
  | _ => 0

/-- Aggregate cost of a list of routes. -/
def totalCost (c : Cost) (rs : List (List Nat)) : Int :=
  (rs.map (routeCost c)).sum

/-- The unsorted savings list: for `i` in `1..N`, for `j` in `i+1..N`,
the tuple `(cost[0][i] + cost[0][j] - cost[i][j], i, j)`, in generation
order.  This is the double loop shared by both solver files. -/
def savingsUnsorted (c : Cost) (N : Nat) : List (Int × Nat × Nat) :=
  ((List.range' 1 N).map (fun i =>
    (List.range' (i + 1) (N - i)).map (fun j =>
      (c 0 i + c 0 j - c i j, i, j)))).flatten

/-- One insertion step of the stable descending sort: the new element
goes in front of the first element whose value is ≤ its own. -/
def insertSaving (x : Int × Nat × Nat) :
    List (Int × Nat × Nat) → List (Int × Nat × Nat)
  | [] => [x]
  | y :: ys => if y.1 ≤ x.1 then x :: y :: ys else y :: insertSaving x ys

/-- Python's `savings.sort(key=lambda x: x[0], reverse=True)`: a stable
sort by value descending.  Python's sort is stable, and a stable sort is
determined uniquely by its comparison key, so it is embedded by the
stable descending insertion sort (`foldr` inserts the earlier elements
last, each in front of the equal-valued ones already placed). -/
def sortSavings (l : List (Int × Nat × Nat)) : List (Int × Nat × Nat) :=
  l.foldr insertSaving []

/-- The candidate list of `final_baseline_solver.py`: only strictly
positive savings are kept (`if saving_value > 0`), then sorted. -/
def savingsSortedF (c : Cost) (N : Nat) : List (Int × Nat × Nat) :=
  sortSavings ((savingsUnsorted c N).filter (fun t => 0 < t.1))

/-- The candidate list of `baseline_solver.py`: all pairs, sorted. -/
def savingsSortedB (c : Cost) (N : Nat) : List (Int × Nat × Nat) :=
  sortSavings (savingsUnsorted c N)

/-- The merge-engine state: the Python dict `routes` (customer → list
object) as a customer→id mapping plus an id→sequence arena. -/
structure MergeState where
  owner : Nat → Nat
  arena : Nat → List Nat
  next : Nat

/-- `routes = {i: [depot_idx, i, depot_idx] for i in range(1, N+1)}`:
customer `i` owns its own singleton route, ids `1..N` live, `N+1` fresh. -/
def initState (N : Nat) : MergeState :=
  ⟨fun c => c, fun r => [0, r, 0], N + 1⟩

/-- The four merge cases of `get_baseline_solution`, producing the
Python variable `new_route` (`None` when no case applies):
case 1 `route_i[-2] == i and route_j[1] == j`,
case 2 `route_i[1] == i and route_j[1] == j` (reverse `route_i`),
case 3 `route_i[-2] == i and route_j[-2] == j` (reverse `route_j`),
case 4 `route_i[1] == i and route_j[-2] == j`. -/
def newRouteOf (a b : List Nat) (i j : Nat) : Option (List Nat) :=
  if secondLast a = i ∧ second b = j then some (a.dropLast ++ b.tail)
  else if second a = i ∧ second b = j then some (a.reverse.dropLast ++ b.tail)
  else if secondLast a = i ∧ secondLast b = j then some (a.dropLast ++ b.reverse.tail)
  else if second a = i ∧ secondLast b = j then some (b.dropLast ++ a.tail)
  else none

/-- `for cust_idx in new_route[1:-1]: routes[cust_idx] = new_route`:
every customer of the merged sequence is re-pointed to the fresh route. -/
def applyMerge (s : MergeState) (r : List Nat) : MergeState :=
  ⟨fun c => if c ∈ interior r then s.next else s.owner c,
   fun k => if k = s.next then r else s.arena k,
   s.next + 1⟩

/-- One iteration of the merge loop of `get_baseline_solution`:
look up the two routes (`routes.get`, always a hit for `1 ≤ i,j ≤ N`),
skip unless the objects differ, skip on capacity violation, then apply
`new_route` if one of the four cases matched. -/
def mergeStep (Q : Int) (s : MergeState) (t : Int × Nat × Nat) : MergeState :=
  if s.owner t.2.1 ≠ s.owner t.2.2 then
    if load (s.arena (s.owner t.2.1)) + load (s.arena (s.owner t.2.2)) ≤ Q then
      match newRouteOf (s.arena (s.owner t.2.1)) (s.arena (s.owner t.2.2))
          t.2.1 t.2.2 with
      | some r => applyMerge s r
      | none => s
    else s
  else s

/-- The merge loop: fold the step over the sorted candidates. -/
def runMerges (Q : Int) (s : MergeState) (cands : List (Int × Nat × Nat)) :
    MergeState :=
  cands.foldl (mergeStep Q) s

/-- First-occurrence deduplication with an accumulator of seen ids:
the order produced by Python's `{id(route): route for route in
routes.values()}` over a dict whose keys `1..N` are in insertion order. -/
def firstDedupAux : List Nat → List Nat → List Nat
  | _, [] => []
  | seen, a :: l =>
    if a ∈ seen then firstDedupAux seen l
    else a :: firstDedupAux (a :: seen) l

/-- First-occurrence deduplication of a list of route ids. -/
def firstDedup (l : List Nat) : List Nat := firstDedupAux [] l

/-- The distinct live route ids, in order of first reference by
customers `1..N`. -/
def liveIds (N : Nat) (s : MergeState) : List Nat :=
  firstDedup ((List.range' 1 N).map s.owner)

/-- `final_routes = list({id(route): route for route in routes.values()}.values())`. -/
def finalRoutes (N : Nat) (s : MergeState) : List (List Nat) :=
  (liveIds N s).map s.arena

/-- The solver phase of `get_baseline_solution` in
`final_baseline_solver.py`, with the cost matrix, customer count and
capacity as parameters (the source fixes `NUM_ORDERS = 50` and
`VEHICLE_CAPACITY = 8` and obtains the matrix from an external API). -/
def getBaselineSolution (c : Cost) (N : Nat) (Q : Int) : List (List Nat) :=
  finalRoutes N (runMerges Q (initState N) (savingsSortedF c N))

/-- The `N` initial singleton round trips `[0, i, 0]`. -/
def initialRoutes (N : Nat) : List (List Nat) :=
  (List.range' 1 N).map (fun i => [0, i, 0])

/-! ### The `baseline_solver.py` merge loop

`baseline_solver.py` defines
```
def find_route(customer_idx, all_routes):
    for route_list in all_routes.values():
        if customer_idx in route_list:
            return route_list
        return None
```
The `return None` sits inside the loop body, so only the first dict
value (the route owned by customer 1, the first inserted key) is ever
examined: the function returns that route when the customer is on it
and `None` otherwise. -/

/-- The early-returning `find_route` of `baseline_solver.py`, returning
the id of the found route (`none` embeds Python's `None`). -/
def find_route (N : Nat) (s : MergeState) (cust : Nat) : Option Nat :=
  if N = 0 then none
  else if cust ∈ s.arena (s.owner 1) then some (s.owner 1) else none

/-- The four merge cases of `baseline_solver.py`:
case 1 tests `route_i[2] == i` (not `route_i[-2]`), and case 3 splices
`route_j[:-1] + route_i[1:]` after reversing `route_j`. -/
def newRouteOfB (a b : List Nat) (i j : Nat) : Option (List Nat) :=
  if a.getD 2 0 = i ∧ second b = j then some (a.dropLast ++ b.tail)
  else if second a = i ∧ second b = j then some (a.reverse.dropLast ++ b.tail)
  else if secondLast a = i ∧ secondLast b = j then some (b.reverse.dropLast ++ a.tail)
  else if second a = i ∧ secondLast b = j then some (b.dropLast ++ a.tail)
  else none

/-- `for customer in new_route: if customer != depot_idx: routes[customer] = new_route`. -/
def applyMergeB (s : MergeState) (r : List Nat) : MergeState :=
  ⟨fun c => if c ∈ r ∧ c ≠ 0 then s.next else s.owner c,
   fun k => if k = s.next then r else s.arena k,
   s.next + 1⟩

/-- One iteration of the `baseline_solver.py` merge loop: both lookups
go through the early-returning `find_route`, and `route_i is not
route_j` is Python object identity, embedded as id inequality. -/
def mergeStepB (Q : Int) (N : Nat) (s : MergeState) (t : Int × Nat × Nat) :
    MergeState :=
  match find_route N s t.2.1, find_route N s t.2.2 with
  | some ri, some rj =>
    if ri ≠ rj then
      if load (s.arena ri) + load (s.arena rj) ≤ Q then
        match newRouteOfB (s.arena ri) (s.arena rj) t.2.1 t.2.2 with
        | some r => applyMergeB s r
        | none => s
      else s
    else s
  | _, _ => s

/-- The module-level merge loop of `baseline_solver.py` (its savings
list is unfiltered), followed by the same `id`-keyed deduplication. -/
def baselineSolver (c : Cost) (N : Nat) (Q : Int) : List (List Nat) :=
  finalRoutes N ((savingsSortedB c N).foldl (mergeStepB Q N) (initState N))

/-! ### Concrete matrices for the spec's scenarios -/

/-- Symmetrization helper: look the pair up in canonical (sorted) order. -/
def symOf (f : Cost) : Cost := fun a b => if a ≤ b then f a b else f b a

/-- Upper triangle of the Scenario A / Scenario B matrix:
`cost[0][1] = 10`, `cost[0][2] = 10`, `cost[1][2] = 5`. -/
def cABase : Cost := fun a b =>
  if a = 0 ∧ b = 1 then 10
  else if a = 0 ∧ b = 2 then 10
  else if a = 1 ∧ b = 2 then 5
  else 0

/-- The symmetric Scenario A / Scenario B cost matrix. -/
def cA : Cost := symOf cABase

/-- An asymmetric matrix: `cost[0][1] = 100`, `cost[1][0] = 1`,
`cost[0][2] = cost[2][0] = 1`, `cost[1][2] = cost[2][1] = 50`. -/
def cAsym : Cost := fun a b =>
  if a = 0 ∧ b = 1 then 100
  else if a = 1 ∧ b = 0 then 1
  else if a = 0 ∧ b = 2 then 1
  else if a = 2 ∧ b = 0 then 1
  else if a = 1 ∧ b = 2 then 50
  else if a = 2 ∧ b = 1 then 50
  else 0

/-- A `symOf` matrix is symmetric. -/
theorem symOf_comm (f : Cost) (x y : Nat) : symOf f x y = symOf f y x := by
  unfold symOf
  rcases le_total x y with h | h
  · rcases eq_or_lt_of_le h with rfl | hlt
    · rfl
    · rw [if_pos h, if_neg (by omega)]
  · rcases eq_or_lt_of_le h with rfl | hlt
    · rfl
    · rw [if_neg (by omega), if_pos h]

/-! ### Properties of first-occurrence deduplication -/

theorem mem_firstDedupAux (x : Nat) :
    ∀ (l seen : List Nat), x ∈ firstDedupAux seen l ↔ x ∈ l ∧ x ∉ seen := by
  intro l
  induction l with
  | nil => intro seen; simp [firstDedupAux]
  | cons a l ih =>
    intro seen
    by_cases h : a ∈ seen
    · rw [firstDedupAux, if_pos h, ih]
      simp only [List.mem_cons]
      constructor
      · rintro ⟨h1, h2⟩; exact ⟨Or.inr h1, h2⟩
      · rintro ⟨rfl | h1, h2⟩
        · exact absurd h h2
        · exact ⟨h1, h2⟩
    · rw [firstDedupAux, if_neg h]
      simp only [List.mem_cons, ih, List.mem_cons]
      constructor
      · rintro (rfl | ⟨h1, h2⟩)
        · exact ⟨Or.inl rfl, h⟩
        · exact ⟨Or.inr h1, fun hs => h2 (Or.inr hs)⟩
      · rintro ⟨rfl | h1, h2⟩
        · exact Or.inl rfl
        · by_cases hxa : x = a
          · exact Or.inl hxa
          · exact Or.inr ⟨h1, fun hs => hs.elim hxa h2⟩

theorem nodup_firstDedupAux :
    ∀ (l seen : List Nat), (firstDedupAux seen l).Nodup := by
  intro l
  induction l with
  | nil => intro seen; simp [firstDedupAux]
  | cons a l ih =>
    intro seen
    by_cases h : a ∈ seen
    · rw [firstDedupAux, if_pos h]; exact ih seen
    · rw [firstDedupAux, if_neg h]
      refine List.nodup_cons.2 ⟨fun hmem => ?_, ih _⟩
      exact ((mem_firstDedupAux a l (a :: seen)).1 hmem).2 (List.mem_cons_self a seen)

theorem firstDedupAux_eq_self :
    ∀ (l seen : List Nat), l.Nodup → (∀ x ∈ l, x ∉ seen) →
      firstDedupAux seen l = l := by
  intro l
  induction l with
  | nil => intro seen _ _; rfl
  | cons a l ih =>
    intro seen hnd hs
    rw [firstDedupAux, if_neg (hs a (List.mem_cons_self a l))]
    rcases List.nodup_cons.1 hnd with ⟨ha, hl⟩
    rw [ih (a :: seen) hl ?_]
    intro x hx
    simp only [List.mem_cons, not_or]
    exact ⟨fun hxa => ha (hxa ▸ hx), hs x (List.mem_cons_of_mem a hx)⟩

theorem mem_firstDedup (x : Nat) (l : List Nat) : x ∈ firstDedup l ↔ x ∈ l := by
  simp [firstDedup, mem_firstDedupAux]

theorem nodup_firstDedup (l : List Nat) : (firstDedup l).Nodup :=
  nodup_firstDedupAux l []

theorem firstDedup_eq_self (l : List Nat) (h : l.Nodup) : firstDedup l = l :=
  firstDedupAux_eq_self l [] h (by simp)

/-! ### Route-shape helpers -/

theorem interior_route (m : List Nat) : interior (0 :: m ++ [0]) = m := by
  show (m ++ [0]).dropLast = m
  exact List.dropLast_concat

theorem second_route (m : List Nat) (x : Nat) :
    second (0 :: (x :: m) ++ [0]) = x := rfl

theorem getD_snocPair : ∀ (m : List Nat) (x : Nat),
    (m ++ [x, 0]).getD m.length 0 = x := by
  intro m
  induction m with
  | nil => intro x; rfl
  | cons a m ih => intro x; exact ih x

theorem secondLast_route (m : List Nat) (x : Nat) :
    secondLast (0 :: (m ++ [x]) ++ [0]) = x := by
  have h : 0 :: (m ++ [x]) ++ [0] = 0 :: (m ++ [x, 0]) := by simp
  rw [secondLast, h]
  have hlen : (0 :: (m ++ [x, 0])).length - 2 = m.length + 1 := by
    simp [List.length_append]
  rw [hlen]
  exact getD_snocPair m x

theorem reverse_route (m : List Nat) :
    (0 :: m ++ [0]).reverse = 0 :: m.reverse ++ [0] := by
  simp

/-! ### Cost decomposition -/

theorem routeCost_cons_cons (c : Cost) (x y : Nat) (l : List Nat) :
    routeCost c (x :: y :: l) = c x y + routeCost c (y :: l) := rfl

theorem routeCost_append (c : Cost) (xs ys : List Nat)
    (hx : xs ≠ []) (hy : ys ≠ []) :
    routeCost c (xs ++ ys) =
      routeCost c xs + c (xs.getLastD 0) (ys.headD 0) + routeCost c ys := by
  induction xs with
  | nil => exact absurd rfl hx
  | cons x xs ih =>
    cases xs with
    | nil =>
      cases ys with
      | nil => exact absurd rfl hy
      | cons y ys =>
        show routeCost c (x :: y :: ys) = routeCost c [x] + c x y + routeCost c (y :: ys)
        rw [routeCost_cons_cons]
        show c x y + routeCost c (y :: ys) = 0 + c x y + routeCost c (y :: ys)
        ring
    | cons x2 xs2 =>
      have h2 := ih (by simp)
      show routeCost c (x :: x2 :: (xs2 ++ ys)) = _
      rw [routeCost_cons_cons]
      have hxy : (x2 :: xs2) ++ ys = x2 :: (xs2 ++ ys) := rfl
      rw [← hxy, h2, routeCost_cons_cons]
      have hlast : (x :: x2 :: xs2).getLastD 0 = (x2 :: xs2).getLastD 0 := by
        rw [List.getLastD_cons, List.getLastD_cons, List.getLastD_cons]
      rw [hlast]
      ring

theorem routeCost_reverse (c : Cost) (hsym : ∀ x y, c x y = c y x) :
    ∀ l : List Nat, routeCost c l.reverse = routeCost c l := by
  intro l
  induction l with
  | nil => rfl
  | cons x l ih =>
    cases l with
    | nil => rfl
    | cons y l2 =>
      rw [List.reverse_cons]
      rw [routeCost_append c ((y :: l2).reverse) [x] (by simp) (by simp)]
      have hlast : ((y :: l2).reverse).getLastD 0 = y := by
        rw [List.getLastD_eq_getLast?, List.getLast?_reverse]
        rfl
      rw [hlast, ih, routeCost_cons_cons]
      show routeCost c (y :: l2) + c y x + 0 = c x y + routeCost c (y :: l2)
      rw [hsym y x]
      ring

/-! ### The savings list: order and membership -/

/-- Ascending lexicographic order on the customer pair of a saving. -/
def lexLt (x y : Int × Nat × Nat) : Prop :=
  x.2.1 < y.2.1 ∨ (x.2.1 = y.2.1 ∧ x.2.2 < y.2.2)

/-- The deterministic candidate order: value descending, ties broken by
ascending customer pair. -/
def savingsOrder (x y : Int × Nat × Nat) : Prop :=
  y.1 < x.1 ∨ (x.1 = y.1 ∧ lexLt x y)

theorem mem_insertSaving (x y : Int × Nat × Nat)
    (l : List (Int × Nat × Nat)) : y ∈ insertSaving x l ↔ y = x ∨ y ∈ l := by
  induction l with
  | nil => simp [insertSaving]
  | cons z zs ih =>
    by_cases h : z.1 ≤ x.1
    · rw [insertSaving, if_pos h]
      simp [List.mem_cons]
    · rw [insertSaving, if_neg h]
      simp only [List.mem_cons, ih]
      tauto

theorem insertSaving_perm (x : Int × Nat × Nat) (l : List (Int × Nat × Nat)) :
    (insertSaving x l).Perm (x :: l) := by
  induction l with
  | nil => exact List.Perm.refl _
  | cons z zs ih =>
    by_cases h : z.1 ≤ x.1
    · rw [insertSaving, if_pos h]
    · rw [insertSaving, if_neg h]
      exact (ih.cons z).trans (List.Perm.swap x z zs)

theorem sortSavings_perm (l : List (Int × Nat × Nat)) :
    (sortSavings l).Perm l := by
  induction l with
  | nil => exact List.Perm.refl _
  | cons x xs ih =>
    show (insertSaving x (sortSavings xs)).Perm (x :: xs)
    exact (insertSaving_perm x (sortSavings xs)).trans (ih.cons x)

theorem pairwise_insertSaving (x : Int × Nat × Nat)
    (l : List (Int × Nat × Nat)) (hl : l.Pairwise savingsOrder)
    (hx : ∀ y ∈ l, lexLt x y) :
    (insertSaving x l).Pairwise savingsOrder := by
  induction l with
  | nil => simp [insertSaving, List.pairwise_cons]
  | cons z zs ih =>
    rcases List.pairwise_cons.1 hl with ⟨hz, hzs⟩
    by_cases h : z.1 ≤ x.1
    · rw [insertSaving, if_pos h]
      refine List.pairwise_cons.2 ⟨?_, hl⟩
      intro w hw
      have hwle : w.1 ≤ x.1 := by
        rcases List.mem_cons.1 hw with rfl | hw2
        · exact h
        · rcases hz w hw2 with h1 | ⟨h1, _⟩
          · exact le_trans (le_of_lt h1) h
          · exact le_trans (le_of_eq h1.symm) h
      rcases lt_or_eq_of_le hwle with h1 | h1
      · exact Or.inl h1
      · exact Or.inr ⟨h1.symm, hx w hw⟩
    · rw [insertSaving, if_neg h]
      refine List.pairwise_cons.2
        ⟨?_, ih hzs (fun y hy => hx y (List.mem_cons_of_mem z hy))⟩
      intro w hw
      rcases (mem_insertSaving x w zs).1 hw with rfl | hw2
      · exact Or.inl (lt_of_not_le h)
      · exact hz w hw2

theorem sortSavings_pairwise (l : List (Int × Nat × Nat))
    (h : l.Pairwise lexLt) : (sortSavings l).Pairwise savingsOrder := by
  induction l with
  | nil => simp [sortSavings]
  | cons x xs ih =>
    rcases List.pairwise_cons.1 h with ⟨hx, hxs⟩
    show (insertSaving x (sortSavings xs)).Pairwise savingsOrder
    exact pairwise_insertSaving x (sortSavings xs) (ih hxs)
      (fun y hy => hx y ((sortSavings_perm xs).mem_iff.1 hy))

theorem mem_savingsUnsorted (c : Cost) (N : Nat) (t : Int × Nat × Nat) :
    t ∈ savingsUnsorted c N ↔
      ∃ i j, 1 ≤ i ∧ i < j ∧ j ≤ N ∧ t = (c 0 i + c 0 j - c i j, i, j) := by
  unfold savingsUnsorted
  constructor
  · intro h
    rcases List.mem_flatten.1 h with ⟨L, hL, htL⟩
    rcases List.mem_map.1 hL with ⟨i, hi, rfl⟩
    rcases List.mem_map.1 htL with ⟨j, hj, rfl⟩
    rcases List.mem_range'_1.1 hi with ⟨hi1, hi2⟩
    rcases List.mem_range'_1.1 hj with ⟨hj1, hj2⟩
    exact ⟨i, j, hi1, by omega, by omega, rfl⟩
  · rintro ⟨i, j, h1, h2, h3, rfl⟩
    refine List.mem_flatten.2
      ⟨_, List.mem_map.2 ⟨i, List.mem_range'_1.2 ⟨h1, by omega⟩, rfl⟩, ?_⟩
    exact List.mem_map.2 ⟨j, List.mem_range'_1.2 ⟨by omega, by omega⟩, rfl⟩

theorem pairwise_savingsUnsorted (c : Cost) (N : Nat) :
    (savingsUnsorted c N).Pairwise lexLt := by
  unfold savingsUnsorted
  rw [List.pairwise_flatten]
  constructor
  · intro l hl
    rcases List.mem_map.1 hl with ⟨i, _, rfl⟩
    rw [List.pairwise_map]
    refine List.Pairwise.imp ?_ (List.pairwise_lt_range' _ _)
    intro a b hab
    exact Or.inr ⟨rfl, hab⟩
  · rw [List.pairwise_map]
    refine List.Pairwise.imp ?_ (List.pairwise_lt_range' _ _)
    intro a b hab
    intro x hx y hy
    rcases List.mem_map.1 hx with ⟨j1, _, rfl⟩
    rcases List.mem_map.1 hy with ⟨j2, _, rfl⟩
    exact Or.inl hab

theorem mem_savingsSortedF (c : Cost) (N : Nat) (t : Int × Nat × Nat) :
    t ∈ savingsSortedF c N ↔
      (∃ i j, 1 ≤ i ∧ i < j ∧ j ≤ N ∧ t = (c 0 i + c 0 j - c i j, i, j)) ∧
        0 < t.1 := by
  unfold savingsSortedF
  rw [(sortSavings_perm _).mem_iff, List.mem_filter, mem_savingsUnsorted]
  simp

theorem mem_savingsSortedB (c : Cost) (N : Nat) (t : Int × Nat × Nat) :
    t ∈ savingsSortedB c N ↔
      ∃ i j, 1 ≤ i ∧ i < j ∧ j ≤ N ∧ t = (c 0 i + c 0 j - c i j, i, j) := by
  unfold savingsSortedB
  rw [(sortSavings_perm _).mem_iff, mem_savingsUnsorted]

/-- Candidate pairs lie in `1..N` (what the merge-loop invariant needs). -/
def validPair (N : Nat) (t : Int × Nat × Nat) : Prop :=
  1 ≤ t.2.1 ∧ t.2.1 ≤ N ∧ 1 ≤ t.2.2 ∧ t.2.2 ≤ N

/-- A candidate of `final_baseline_solver.py`: in-range pair, value given
by the savings formula, strictly positive. -/
def validCand (c : Cost) (N : Nat) (t : Int × Nat × Nat) : Prop :=
  validPair N t ∧ t.1 = c 0 t.2.1 + c 0 t.2.2 - c t.2.1 t.2.2 ∧ 0 < t.1

theorem validCand_of_mem (c : Cost) (N : Nat) (t : Int × Nat × Nat)
    (h : t ∈ savingsSortedF c N) : validCand c N t := by
  rcases (mem_savingsSortedF c N t).1 h with ⟨⟨i, j, h1, h2, h3, rfl⟩, h4⟩
  exact ⟨⟨h1, show i ≤ N by omega, show 1 ≤ j by omega, h3⟩, rfl, h4⟩

/-! ### Route algebra for the four splices -/

theorem dropLast_route (m : List Nat) : (0 :: m ++ [0]).dropLast = 0 :: m := by
  rw [show (0 : Nat) :: m ++ [0] = (0 :: m) ++ [0] from rfl, List.dropLast_concat]

theorem tail_route (m : List Nat) : (0 :: m ++ [0]).tail = m ++ [0] := rfl

theorem route_append_route (m1 m2 : List Nat) :
    (0 :: m1) ++ (m2 ++ [0]) = 0 :: (m1 ++ m2) ++ [0] := by simp

theorem load_route (m : List Nat) : load (0 :: m ++ [0]) = (m.length : Int) := by
  show ((0 :: m ++ [0]).length : Int) - 2 = (m.length : Int)
  have h : (0 :: m ++ [0]).length = m.length + 2 := by simp
  rw [h]
  push_cast
  ring

/-- Any route produced by a matching merge case is depot-bounded and its
interior is a permutation of the two interiors joined. -/
theorem newRouteOf_shape (a b : List Nat) (i j : Nat) (r : List Nat)
    (ma mb : List Nat) (ha : a = 0 :: ma ++ [0]) (hb : b = 0 :: mb ++ [0])
    (h : newRouteOf a b i j = some r) :
    ∃ mr, r = 0 :: mr ++ [0] ∧ mr.Perm (ma ++ mb) := by
  subst ha hb
  unfold newRouteOf at h
  split_ifs at h with h1 h2 h3 h4
  · refine ⟨ma ++ mb, ?_, List.Perm.refl _⟩
    rw [← Option.some.inj h, dropLast_route, tail_route, route_append_route]
  · refine ⟨ma.reverse ++ mb, ?_, (List.reverse_perm ma).append_right mb⟩
    rw [← Option.some.inj h, reverse_route, dropLast_route, tail_route,
      route_append_route]
  · refine ⟨ma ++ mb.reverse, ?_, (List.reverse_perm mb).append_left ma⟩
    rw [← Option.some.inj h, reverse_route, dropLast_route, tail_route,
      route_append_route]
  · refine ⟨mb ++ ma, ?_, List.perm_append_comm⟩
    rw [← Option.some.inj h, dropLast_route, tail_route, route_append_route]

/-! ### The merge-loop invariant -/

/-- Invariant of every reachable merge-loop state, for customer count
`N` and capacity `Q`: live route ids are below `next`; every live route
is `0 :: m ++ [0]` with a nonempty interior of customers in `1..N`; all
customers of a live route own it; each customer is on its own route
exactly once; and every live route's load is at most `max Q 1`. -/
structure Inv (N : Nat) (Q : Int) (s : MergeState) : Prop where
  own_lt : ∀ c, 1 ≤ c → c ≤ N → s.owner c < s.next
  form : ∀ c, 1 ≤ c → c ≤ N →
    s.arena (s.owner c) = 0 :: interior (s.arena (s.owner c)) ++ [0]
  int_ne : ∀ c, 1 ≤ c → c ≤ N → interior (s.arena (s.owner c)) ≠ []
  int_range : ∀ c, 1 ≤ c → c ≤ N →
    ∀ d ∈ interior (s.arena (s.owner c)), 1 ≤ d ∧ d ≤ N
  mem_own : ∀ c, 1 ≤ c → c ≤ N →
    ∀ d ∈ interior (s.arena (s.owner c)), s.owner d = s.owner c
  own_mem : ∀ c, 1 ≤ c → c ≤ N → c ∈ interior (s.arena (s.owner c))
  count_one : ∀ c, 1 ≤ c → c ≤ N →
    (interior (s.arena (s.owner c))).count c = 1
  load_le : ∀ c, 1 ≤ c → c ≤ N →
    ((interior (s.arena (s.owner c))).length : Int) ≤ max Q 1

theorem inv_init (N : Nat) (Q : Int) : Inv N Q (initState N) := by
  refine ⟨?_, ?_, ?_, ?_, ?_, ?_, ?_, ?_⟩ <;> intro c h1 h2
  · show c < N + 1
    omega
  · rfl
  · show [c] ≠ []
    simp
  · intro d hd
    rcases List.mem_singleton.1 hd with rfl
    exact ⟨h1, h2⟩
  · intro d hd
    rcases List.mem_singleton.1 hd with rfl
    rfl
  · show c ∈ [c]
    exact List.mem_singleton_self c
  · show List.count c [c] = 1
    simp
  · show ((1 : Nat) : Int) ≤ max Q 1
    exact_mod_cast le_max_right Q 1

theorem inv_step (N : Nat) (Q : Int) (s : MergeState) (t : Int × Nat × Nat)
    (hI : Inv N Q s) (ht : validPair N t) : Inv N Q (mergeStep Q s t) := by
  obtain ⟨hi1, hi2, hj1, hj2⟩ := ht
  unfold mergeStep
  set i := t.2.1 with hidef
  set j := t.2.2 with hjdef
  split_ifs with hne hcap
  · cases hnr : newRouteOf (s.arena (s.owner i)) (s.arena (s.owner j)) i j with
    | none => exact hI
    | some r =>
      show Inv N Q (applyMerge s r)
      set oi := s.owner i with hoidef
      set oj := s.owner j with hojdef
      set ma := interior (s.arena oi) with hmadef
      set mb := interior (s.arena oj) with hmbdef
      obtain ⟨mr, hreq, hperm⟩ :=
        newRouteOf_shape _ _ _ _ r ma mb (hI.form i hi1 hi2)
          (hI.form j hj1 hj2) hnr
      have hint : interior r = mr := by rw [hreq, interior_route]
      have hmane : ma ≠ [] := hI.int_ne i hi1 hi2
      have hmbne : mb ≠ [] := hI.int_ne j hj1 hj2
      have hkey : ∀ c, 1 ≤ c → c ≤ N →
          (c ∈ mr ↔ s.owner c = oi ∨ s.owner c = oj) := by
        intro c hc1 hc2
        constructor
        · intro hc
          rcases List.mem_append.1 (hperm.mem_iff.1 hc) with h | h
          · exact Or.inl (hI.mem_own i hi1 hi2 c h)
          · exact Or.inr (hI.mem_own j hj1 hj2 c h)
        · intro hc
          have hm := hI.own_mem c hc1 hc2
          rcases hc with h | h
          · rw [h] at hm
            exact hperm.mem_iff.2 (List.mem_append.2 (Or.inl hm))
          · rw [h] at hm
            exact hperm.mem_iff.2 (List.mem_append.2 (Or.inr hm))
      have hmrne : mr ≠ [] := by
        intro h
        rw [h] at hperm
        rcases List.append_eq_nil.1 hperm.symm.eq_nil with ⟨h1, _⟩
        exact hmane h1
      have howner : ∀ c, (applyMerge s r).owner c =
          if c ∈ mr then s.next else s.owner c := by
        intro c
        show (if c ∈ interior r then s.next else s.owner c) = _
        rw [hint]
      have harena_next : (applyMerge s r).arena s.next = r := by
        show (if s.next = s.next then r else s.arena s.next) = r
        rw [if_pos rfl]
      have harena_old : ∀ k, k ≠ s.next → (applyMerge s r).arena k = s.arena k := by
        intro k hk
        show (if k = s.next then r else s.arena k) = s.arena k
        rw [if_neg hk]
      have hnext : (applyMerge s r).next = s.next + 1 := rfl
      have hcase : ∀ c, 1 ≤ c → c ≤ N →
          ((applyMerge s r).owner c = s.next ∧ c ∈ mr ∧
            (applyMerge s r).arena ((applyMerge s r).owner c) = r) ∨
          ((applyMerge s r).owner c = s.owner c ∧ c ∉ mr ∧
            s.owner c ≠ oi ∧ s.owner c ≠ oj ∧
            (applyMerge s r).arena ((applyMerge s r).owner c) =
              s.arena (s.owner c)) := by
        intro c hc1 hc2
        by_cases hc : c ∈ mr
        · left
          have ho : (applyMerge s r).owner c = s.next := by
            rw [howner, if_pos hc]
          exact ⟨ho, hc, by rw [ho, harena_next]⟩
        · right
          have ho : (applyMerge s r).owner c = s.owner c := by
            rw [howner, if_neg hc]
          have hlt := hI.own_lt c hc1 hc2
          refine ⟨ho, hc, ?_, ?_, ?_⟩
          · intro h
            exact hc ((hkey c hc1 hc2).2 (Or.inl h))
          · intro h
            exact hc ((hkey c hc1 hc2).2 (Or.inr h))
          · rw [ho, harena_old _ (Nat.ne_of_lt hlt)]
      refine ⟨?_, ?_, ?_, ?_, ?_, ?_, ?_, ?_⟩ <;> intro c hc1 hc2
      · rw [hnext]
        rcases hcase c hc1 hc2 with ⟨ho, _, _⟩ | ⟨ho, _, _, _, _⟩
        · rw [ho]; omega
        · rw [ho]
          have := hI.own_lt c hc1 hc2
          omega
      · rcases hcase c hc1 hc2 with ⟨_, _, har⟩ | ⟨_, _, _, _, har⟩
        · rw [har, hint]; exact hreq
        · rw [har]; exact hI.form c hc1 hc2
      · rcases hcase c hc1 hc2 with ⟨_, _, har⟩ | ⟨_, _, _, _, har⟩
        · rw [har, hint]; exact hmrne
        · rw [har]; exact hI.int_ne c hc1 hc2
      · rcases hcase c hc1 hc2 with ⟨_, _, har⟩ | ⟨_, _, _, _, har⟩
        · rw [har, hint]
          intro d hd
          rcases List.mem_append.1 (hperm.mem_iff.1 hd) with h | h
          · exact hI.int_range i hi1 hi2 d h
          · exact hI.int_range j hj1 hj2 d h
        · rw [har]; exact hI.int_range c hc1 hc2
      · rcases hcase c hc1 hc2 with ⟨ho, _, har⟩ | ⟨ho, hcm, hnoi, hnoj, har⟩
        · rw [har, hint]
          intro d hd
          rw [howner, if_pos hd, ho]
        · rw [har]
          intro d hd
          have hdown := hI.mem_own c hc1 hc2 d hd
          have hdrange := hI.int_range c hc1 hc2 d hd
          have hdnot : d ∉ mr := by
            intro h
            rcases (hkey d hdrange.1 hdrange.2).1 h with h2 | h2
            · exact hnoi (hdown ▸ h2)
            · exact hnoj (hdown ▸ h2)
          rw [howner, if_neg hdnot, ho]
          exact hdown
      · rcases hcase c hc1 hc2 with ⟨_, hcm, har⟩ | ⟨_, _, _, _, har⟩
        · rw [har, hint]; exact hcm
        · rw [har]; exact hI.own_mem c hc1 hc2
      · rcases hcase c hc1 hc2 with ⟨_, hcm, har⟩ | ⟨_, _, _, _, har⟩
        · rw [har, hint, hperm.count_eq, List.count_append]
          rcases (hkey c hc1 hc2).1 hcm with h | h
          · have h1 : ma.count c = 1 := by
              have hco := hI.count_one c hc1 hc2
              rw [h] at hco
              exact hco
            have h2 : mb.count c = 0 := by
              rw [List.count_eq_zero]
              intro hmem
              have := hI.mem_own j hj1 hj2 c hmem
              rw [h] at this
              exact hne this
            omega
          · have h1 : mb.count c = 1 := by
              have hco := hI.count_one c hc1 hc2
              rw [h] at hco
              exact hco
            have h2 : ma.count c = 0 := by
              rw [List.count_eq_zero]
              intro hmem
              have := hI.mem_own i hi1 hi2 c hmem
              rw [h] at this
              exact hne this.symm
            omega
        · rw [har]; exact hI.count_one c hc1 hc2
      · rcases hcase c hc1 hc2 with ⟨_, _, har⟩ | ⟨_, _, _, _, har⟩
        · rw [har, hint]
          have hcap2 : (ma.length : Int) + (mb.length : Int) ≤ Q := by
            rw [hI.form i hi1 hi2, hI.form j hj1 hj2, load_route, load_route]
              at hcap
            exact_mod_cast hcap
          calc ((mr.length : Nat) : Int)
              = (ma.length : Int) + (mb.length : Int) := by
                rw [hperm.length_eq, List.length_append]
                push_cast
                ring
            _ ≤ Q := hcap2
            _ ≤ max Q 1 := le_max_left Q 1
        · rw [har]; exact hI.load_le c hc1 hc2
  · exact hI
  · exact hI

theorem inv_run (N : Nat) (Q : Int) (cands : List (Int × Nat × Nat)) :
    ∀ (s : MergeState), Inv N Q s → (∀ t ∈ cands, validPair N t) →
      Inv N Q (runMerges Q s cands) := by
  induction cands with
  | nil => intro s hI _; exact hI
  | cons t ts ih =>
    intro s hI hv
    show Inv N Q (runMerges Q (mergeStep Q s t) ts)
    exact ih _ (inv_step N Q s t hI (hv t (List.mem_cons_self t ts)))
      (fun u hu => hv u (List.mem_cons_of_mem t hu))

/-! ### The initial and final route collections -/

theorem liveIds_init (N : Nat) : liveIds N (initState N) = List.range' 1 N := by
  unfold liveIds
  have h1 : (List.range' 1 N).map (initState N).owner = List.range' 1 N := by
    simp [initState]
  rw [h1]
  exact firstDedup_eq_self _ (List.nodup_range' 1 N)

theorem finalRoutes_init (N : Nat) :
    finalRoutes N (initState N) = initialRoutes N := by
  unfold finalRoutes initialRoutes
  rw [liveIds_init]
  rfl

theorem mem_finalRoutes (N : Nat) (s : MergeState) (r : List Nat) :
    r ∈ finalRoutes N s ↔ ∃ c, 1 ≤ c ∧ c ≤ N ∧ r = s.arena (s.owner c) := by
  unfold finalRoutes liveIds
  constructor
  · intro h
    rcases List.mem_map.1 h with ⟨rid, hid, rfl⟩
    have h2 := (mem_firstDedup _ _).1 hid
    rcases List.mem_map.1 h2 with ⟨k, hk, rfl⟩
    rcases List.mem_range'_1.1 hk with ⟨h3, h4⟩
    exact ⟨k, h3, by omega, rfl⟩
  · rintro ⟨k, h1, h2, rfl⟩
    refine List.mem_map.2 ⟨s.owner k, ?_, rfl⟩
    exact (mem_firstDedup _ _).2
      (List.mem_map.2 ⟨k, List.mem_range'_1.2 ⟨h1, by omega⟩, rfl⟩)

/-! ### Each customer appears exactly once in the final output -/

theorem sum_map_zero (l : List Nat) (f : Nat → Nat) (hf : ∀ x ∈ l, f x = 0) :
    (l.map f).sum = 0 := by
  induction l with
  | nil => rfl
  | cons x xs ih =>
    rw [List.map_cons, List.sum_cons, hf x (List.mem_cons_self x xs),
      ih (fun y hy => hf y (List.mem_cons_of_mem x hy))]

theorem sum_map_single (l : List Nat) (a : Nat) (f : Nat → Nat)
    (hnd : l.Nodup) (ha : a ∈ l)
    (hf : ∀ x ∈ l, f x = if x = a then 1 else 0) :
    (l.map f).sum = 1 := by
  induction l with
  | nil => cases ha
  | cons x xs ih =>
    rcases List.nodup_cons.1 hnd with ⟨hx, hxs⟩
    rw [List.map_cons, List.sum_cons]
    by_cases hxa : x = a
    · subst hxa
      have hz : (xs.map f).sum = 0 := by
        refine sum_map_zero xs f ?_
        intro y hy
        rw [hf y (List.mem_cons_of_mem x hy), if_neg]
        intro h
        exact hx (h ▸ hy)
      rw [hf x (List.mem_cons_self x xs), if_pos rfl, hz]
    · rcases List.mem_cons.1 ha with rfl | ha2
      · exact absurd rfl hxa
      · rw [hf x (List.mem_cons_self x xs), if_neg hxa,
          ih hxs ha2 (fun y hy => hf y (List.mem_cons_of_mem x hy))]

theorem count_route (m : List Nat) (k : Nat) (hk : 1 ≤ k) :
    (0 :: m ++ [0]).count k = m.count k := by
  have h0 : ((0 : Nat) == k) = false := by
    simp
    omega
  rw [show (0 : Nat) :: m ++ [0] = 0 :: (m ++ [0]) from rfl, List.count_cons,
    List.count_append, h0]
  simp [List.count_cons, h0]

theorem count_sum_one (N : Nat) (Q : Int) (s : MergeState) (hI : Inv N Q s)
    (k : Nat) (hk1 : 1 ≤ k) (hk2 : k ≤ N) :
    ((finalRoutes N s).map (fun r => r.count k)).sum = 1 := by
  unfold finalRoutes
  rw [List.map_map]
  refine sum_map_single _ (s.owner k) _ (nodup_firstDedup _) ?_ ?_
  · exact (mem_firstDedup _ _).2
      (List.mem_map.2 ⟨k, List.mem_range'_1.2 ⟨hk1, by omega⟩, rfl⟩)
  · intro rid hid
    have h2 := (mem_firstDedup _ _).1 hid
    rcases List.mem_map.1 h2 with ⟨d, hd, rfl⟩
    rcases List.mem_range'_1.1 hd with ⟨hd1, hd2'⟩
    have hd2 : d ≤ N := by omega
    show (s.arena (s.owner d)).count k = _
    rw [hI.form d hd1 hd2, count_route _ _ hk1]
    by_cases h : s.owner d = s.owner k
    · rw [if_pos h, h]
      exact hI.count_one k hk1 hk2
    · rw [if_neg h, List.count_eq_zero]
      intro hmem
      exact h (hI.mem_own d hd1 hd2 k hmem).symm

/-- Exactly-one ownership of customer `k` in a state: `k` lies on the
route its lookup entry resolves to exactly once, and any live route
containing `k` is that route. -/
def ExactlyOne (N : Nat) (s : MergeState) (k : Nat) : Prop :=
  (interior (s.arena (s.owner k))).count k = 1 ∧
  ∀ d, 1 ≤ d → d ≤ N → k ∈ interior (s.arena (s.owner d)) →
    s.owner d = s.owner k

theorem exactlyOne_of_inv (N : Nat) (Q : Int) (s : MergeState)
    (hI : Inv N Q s) (k : Nat) (h1 : 1 ≤ k) (h2 : k ≤ N) :
    ExactlyOne N s k :=
  ⟨hI.count_one k h1 h2, fun d hd1 hd2 hk => (hI.mem_own d hd1 hd2 k hk).symm⟩

/-! ### No merge is possible when the capacity is below 1 -/

theorem mergeStep_eq_of_small_Q (N : Nat) (Q : Int) (hQ : Q < 1)
    (s : MergeState) (t : Int × Nat × Nat) (hI : Inv N Q s)
    (ht : validPair N t) : mergeStep Q s t = s := by
  obtain ⟨hi1, hi2, hj1, hj2⟩ := ht
  unfold mergeStep
  split_ifs with hne hcap
  · exfalso
    rw [hI.form t.2.1 hi1 hi2, hI.form t.2.2 hj1 hj2, load_route,
      load_route] at hcap
    have h1 : 1 ≤ (interior (s.arena (s.owner t.2.1))).length :=
      List.length_pos.2 (hI.int_ne t.2.1 hi1 hi2)
    have h2 : 1 ≤ (interior (s.arena (s.owner t.2.2))).length :=
      List.length_pos.2 (hI.int_ne t.2.2 hj1 hj2)
    omega
  · rfl
  · rfl

theorem runMerges_small_Q (N : Nat) (Q : Int) (hQ : Q < 1)
    (cands : List (Int × Nat × Nat))
    (hv : ∀ t ∈ cands, validPair N t) :
    runMerges Q (initState N) cands = initState N := by
  induction cands with
  | nil => rfl
  | cons t ts ih =>
    show runMerges Q (mergeStep Q (initState N) t) ts = initState N
    rw [mergeStep_eq_of_small_Q N Q hQ (initState N) t (inv_init N Q)
      (hv t (List.mem_cons_self t ts))]
    exact ih (fun u hu => hv u (List.mem_cons_of_mem t hu))

/-! ### The `baseline_solver.py` loop never merges

When both `find_route` lookups succeed they both return the first
route of the dict, so the object-identity test always fails. -/

theorem mergeStepB_eq (Q : Int) (N : Nat) (s : MergeState)
    (t : Int × Nat × Nat) : mergeStepB Q N s t = s := by
  unfold mergeStepB find_route
  by_cases hN : N = 0
  · rw [if_pos hN, if_pos hN]
  · rw [if_neg hN, if_neg hN]
    by_cases hi : t.2.1 ∈ s.arena (s.owner 1)
    · rw [if_pos hi]
      by_cases hj : t.2.2 ∈ s.arena (s.owner 1)
      · rw [if_pos hj]
        show (if s.owner 1 ≠ s.owner 1 then _ else s) = s
        rw [if_neg (by simp)]
      · rw [if_neg hj]
    · rw [if_neg hi]

theorem baselineSolver_eq (c : Cost) (N : Nat) (Q : Int) :
    baselineSolver c N Q = initialRoutes N := by
  unfold baselineSolver
  have h : ∀ (l : List (Int × Nat × Nat)) (s : MergeState),
      l.foldl (mergeStepB Q N) s = s := by
    intro l
    induction l with
    | nil => intro s; rfl
    | cons t ts ih =>
      intro s
      rw [List.foldl_cons, mergeStepB_eq]
      exact ih s
  rw [h]
  exact finalRoutes_init N

/-! ### Cost of a merged route (symmetric matrix) -/

theorem routeCost_route_last (c : Cost) (m0 : List Nat) (x : Nat) :
    routeCost c (0 :: (m0 ++ [x]) ++ [0]) =
      routeCost c (0 :: (m0 ++ [x])) + c x 0 := by
  rw [show (0 : Nat) :: (m0 ++ [x]) ++ [0] = (0 :: (m0 ++ [x])) ++ [0] from rfl]
  rw [routeCost_append c _ _ (by simp) (by simp)]
  have h1 : ((0 : Nat) :: (m0 ++ [x])).getLastD 0 = x := by
    rw [show (0 : Nat) :: (m0 ++ [x]) = (0 :: m0) ++ [x] from rfl]
    exact List.getLastD_concat _ _ _
  rw [h1]
  show routeCost c (0 :: (m0 ++ [x])) + c x 0 + 0 = _
  ring

theorem routeCost_route_head (c : Cost) (y : Nat) (m0 : List Nat) :
    routeCost c (0 :: (y :: m0) ++ [0]) =
      c 0 y + routeCost c ((y :: m0) ++ [0]) := by
  rw [show (0 : Nat) :: (y :: m0) ++ [0] = [0] ++ ((y :: m0) ++ [0]) from rfl]
  rw [routeCost_append c _ _ (by simp) (by simp)]
  show 0 + c 0 y + routeCost c ((y :: m0) ++ [0]) = _
  ring

theorem routeCost_mid (c : Cost) (m1 : List Nat) (x y : Nat) (m2 : List Nat) :
    routeCost c ((0 :: (m1 ++ [x])) ++ ((y :: m2) ++ [0])) =
      routeCost c (0 :: (m1 ++ [x])) + c x y +
        routeCost c ((y :: m2) ++ [0]) := by
  rw [routeCost_append c _ _ (by simp) (by simp)]
  have h1 : ((0 : Nat) :: (m1 ++ [x])).getLastD 0 = x := by
    rw [show (0 : Nat) :: (m1 ++ [x]) = (0 :: m1) ++ [x] from rfl]
    exact List.getLastD_concat _ _ _
  rw [h1]
  rfl

/-- For a symmetric matrix, every accepted merge case produces a route
whose cost is the two old costs minus the saving value of the pair. -/
theorem routeCost_newRoute (c : Cost) (hsym : ∀ x y, c x y = c y x)
    (a b : List Nat) (i j : Nat) (r ma mb : List Nat)
    (ha : a = 0 :: ma ++ [0]) (hb : b = 0 :: mb ++ [0])
    (hma : ma ≠ []) (hmb : mb ≠ [])
    (h : newRouteOf a b i j = some r) :
    routeCost c r =
      routeCost c a + routeCost c b - (c 0 i + c 0 j - c i j) := by
  subst ha hb
  unfold newRouteOf at h
  split_ifs at h with h1 h2 h3 h4
  · rcases List.eq_nil_or_concat ma with rfl | ⟨m1, x, rfl⟩
    · exact absurd rfl hma
    rcases mb with _ | ⟨y, m2⟩
    · exact absurd rfl hmb
    simp only [List.concat_eq_append] at h h1 ⊢
    have hx : x = i := (secondLast_route m1 x).symm.trans h1.1
    have hy : y = j := (second_route m2 y).symm.trans h1.2
    subst hx hy
    have hr : r = (0 :: (m1 ++ [x])) ++ ((y :: m2) ++ [0]) := by
      rw [← Option.some.inj h, dropLast_route, tail_route]
    rw [hr, routeCost_mid, routeCost_route_last, routeCost_route_head]
    rw [hsym x 0]
    ring
  · rcases ma with _ | ⟨x, m1⟩
    · exact absurd rfl hma
    rcases mb with _ | ⟨y, m2⟩
    · exact absurd rfl hmb
    have hx : x = i := (second_route m1 x).symm.trans h2.1
    have hy : y = j := (second_route m2 y).symm.trans h2.2
    subst hx hy
    have hrev : ((0 : Nat) :: (x :: m1) ++ [0]).reverse =
        0 :: (m1.reverse ++ [x]) ++ [0] := by
      rw [reverse_route, List.reverse_cons]
    have hr : r = (0 :: (m1.reverse ++ [x])) ++ ((y :: m2) ++ [0]) := by
      rw [← Option.some.inj h, hrev, dropLast_route, tail_route]
    have hca : routeCost c (0 :: (x :: m1) ++ [0]) =
        routeCost c (0 :: (m1.reverse ++ [x])) + c x 0 := by
      rw [← routeCost_reverse c hsym (0 :: (x :: m1) ++ [0]), hrev,
        routeCost_route_last]
    rw [hr, routeCost_mid, hca, routeCost_route_head, hsym x 0]
    ring
  · rcases List.eq_nil_or_concat ma with rfl | ⟨m1, x, rfl⟩
    · exact absurd rfl hma
    rcases List.eq_nil_or_concat mb with rfl | ⟨m2, y, rfl⟩
    · exact absurd rfl hmb
    simp only [List.concat_eq_append] at h h3 ⊢
    have hx : x = i := (secondLast_route m1 x).symm.trans h3.1
    have hy : y = j := (secondLast_route m2 y).symm.trans h3.2
    subst hx hy
    have hrevb : ((0 : Nat) :: (m2 ++ [y]) ++ [0]).reverse =
        0 :: (y :: m2.reverse) ++ [0] := by
      rw [reverse_route]
      simp
    have hr : r = (0 :: (m1 ++ [x])) ++ ((y :: m2.reverse) ++ [0]) := by
      rw [← Option.some.inj h, hrevb, dropLast_route, tail_route]
    rw [hr, routeCost_mid, routeCost_route_last]
    have hcb : routeCost c (0 :: (m2 ++ [y]) ++ [0]) =
        c 0 y + routeCost c ((y :: m2.reverse) ++ [0]) := by
      rw [← routeCost_reverse c hsym (0 :: (m2 ++ [y]) ++ [0]), hrevb,
        routeCost_route_head]
    rw [hcb, hsym x 0]
    ring
  · rcases ma with _ | ⟨x, m1⟩
    · exact absurd rfl hma
    rcases List.eq_nil_or_concat mb with rfl | ⟨m2, y, rfl⟩
    · exact absurd rfl hmb
    simp only [List.concat_eq_append] at h h4 ⊢
    have hx : x = i := (second_route m1 x).symm.trans h4.1
    have hy : y = j := (secondLast_route m2 y).symm.trans h4.2
    subst hx hy
    have hr : r = (0 :: (m2 ++ [y])) ++ ((x :: m1) ++ [0]) := by
      rw [← Option.some.inj h, dropLast_route, tail_route]
    rw [hr, routeCost_mid, routeCost_route_last, routeCost_route_head]
    rw [hsym y 0, hsym y x]
    ring

/-! ### The state cost never increases (symmetric matrix) -/

/-- The total travel cost of the live routes of a state. -/
def stateCost (c : Cost) (N : Nat) (s : MergeState) : Int :=
  totalCost c (finalRoutes N s)

theorem stateCost_eq_sum (c : Cost) (N : Nat) (s : MergeState) :
    stateCost c N s =
      ∑ rid ∈ ((List.range' 1 N).map s.owner).toFinset,
        routeCost c (s.arena rid) := by
  unfold stateCost totalCost finalRoutes liveIds
  rw [List.map_map]
  have h1 : (firstDedup ((List.range' 1 N).map s.owner)).toFinset =
      ((List.range' 1 N).map s.owner).toFinset := by
    ext x
    simp [List.mem_toFinset, mem_firstDedup]
  rw [← List.sum_toFinset _ (nodup_firstDedup _), h1]
  rfl

/-- A customer is on the merged route iff its route was one of the two
merged routes. -/
theorem mem_merged_iff (N : Nat) (Q : Int) (s : MergeState) (hI : Inv N Q s)
    (i j : Nat) (hi1 : 1 ≤ i) (hi2 : i ≤ N) (hj1 : 1 ≤ j) (hj2 : j ≤ N)
    (mr : List Nat)
    (hperm : mr.Perm (interior (s.arena (s.owner i)) ++
      interior (s.arena (s.owner j))))
    (k : Nat) (hk1 : 1 ≤ k) (hk2 : k ≤ N) :
    k ∈ mr ↔ s.owner k = s.owner i ∨ s.owner k = s.owner j := by
  constructor
  · intro hk
    rcases List.mem_append.1 (hperm.mem_iff.1 hk) with h | h
    · exact Or.inl (hI.mem_own i hi1 hi2 k h)
    · exact Or.inr (hI.mem_own j hj1 hj2 k h)
  · intro hk
    have hm := hI.own_mem k hk1 hk2
    rcases hk with h | h
    · rw [h] at hm
      exact hperm.mem_iff.2 (List.mem_append.2 (Or.inl hm))
    · rw [h] at hm
      exact hperm.mem_iff.2 (List.mem_append.2 (Or.inr hm))

theorem stateCost_step_le (c : Cost) (N : Nat) (Q : Int) (s : MergeState)
    (t : Int × Nat × Nat) (hsym : ∀ x y, c x y = c y x)
    (hI : Inv N Q s) (hv : validCand c N t) :
    stateCost c N (mergeStep Q s t) ≤ stateCost c N s := by
  obtain ⟨⟨hi1, hi2, hj1, hj2⟩, hval, hpos⟩ := hv
  unfold mergeStep
  split_ifs with hne hcap
  · cases hnr : newRouteOf (s.arena (s.owner t.2.1)) (s.arena (s.owner t.2.2))
        t.2.1 t.2.2 with
    | none => exact le_refl _
    | some r =>
      show stateCost c N (applyMerge s r) ≤ stateCost c N s
      obtain ⟨mr, hreq, hperm⟩ :=
        newRouteOf_shape _ _ _ _ r _ _ (hI.form t.2.1 hi1 hi2)
          (hI.form t.2.2 hj1 hj2) hnr
      have hint : interior r = mr := by rw [hreq, interior_route]
      have hkey := fun k hk1 hk2 => mem_merged_iff N Q s hI t.2.1 t.2.2
        hi1 hi2 hj1 hj2 mr hperm k hk1 hk2
      have hrc : routeCost c r =
          routeCost c (s.arena (s.owner t.2.1)) +
            routeCost c (s.arena (s.owner t.2.2)) -
            (c 0 t.2.1 + c 0 t.2.2 - c t.2.1 t.2.2) :=
        routeCost_newRoute c hsym _ _ _ _ r _ _ (hI.form t.2.1 hi1 hi2)
          (hI.form t.2.2 hj1 hj2) (hI.int_ne t.2.1 hi1 hi2)
          (hI.int_ne t.2.2 hj1 hj2) hnr
      rw [stateCost_eq_sum, stateCost_eq_sum]
      have himage : ((List.range' 1 N).map (applyMerge s r).owner).toFinset =
          insert s.next (((List.range' 1 N).map s.owner).toFinset \
            {s.owner t.2.1, s.owner t.2.2}) := by
        ext rid
        constructor
        · intro hrid
          rcases List.mem_map.1 (List.mem_toFinset.1 hrid) with ⟨k, hk, heq⟩
          rcases List.mem_range'_1.1 hk with ⟨hk1, hk2'⟩
          have hk2 : k ≤ N := by omega
          have ho : (applyMerge s r).owner k =
              if k ∈ mr then s.next else s.owner k := by
            show (if k ∈ interior r then s.next else s.owner k) = _
            rw [hint]
          by_cases hkmr : k ∈ mr
          · rw [ho, if_pos hkmr] at heq
            exact Finset.mem_insert.2 (Or.inl heq.symm)
          · rw [ho, if_neg hkmr] at heq
            refine Finset.mem_insert.2 (Or.inr (Finset.mem_sdiff.2 ⟨?_, ?_⟩))
            · exact List.mem_toFinset.2 (List.mem_map.2 ⟨k, hk, heq⟩)
            · intro hpair
              rcases Finset.mem_insert.1 hpair with h | h
              · exact hkmr ((hkey k hk1 hk2).2 (Or.inl (heq.trans h)))
              · rcases Finset.mem_singleton.1 h with h2
                exact hkmr ((hkey k hk1 hk2).2 (Or.inr (heq.trans h2)))
        · intro hrid
          rcases Finset.mem_insert.1 hrid with rfl | hrid
          · have hio : (applyMerge s r).owner t.2.1 = s.next := by
              show (if t.2.1 ∈ interior r then s.next else _) = _
              rw [hint, if_pos ((hkey t.2.1 hi1 hi2).2 (Or.inl rfl))]
            exact List.mem_toFinset.2 (List.mem_map.2
              ⟨t.2.1, List.mem_range'_1.2 ⟨hi1, by omega⟩, hio⟩)
          · rcases Finset.mem_sdiff.1 hrid with ⟨h1, h2⟩
            rcases List.mem_map.1 (List.mem_toFinset.1 h1) with ⟨k, hk, heq⟩
            rcases List.mem_range'_1.1 hk with ⟨hk1, hk2'⟩
            have hk2 : k ≤ N := by omega
            have hkmr : k ∉ mr := by
              intro hmem
              rcases (hkey k hk1 hk2).1 hmem with h | h
              · exact h2 (Finset.mem_insert.2 (Or.inl (heq.symm.trans h)))
              · exact h2 (Finset.mem_insert.2 (Or.inr
                  (Finset.mem_singleton.2 (heq.symm.trans h))))
            have ho : (applyMerge s r).owner k = s.owner k := by
              show (if k ∈ interior r then s.next else s.owner k) = _
              rw [hint, if_neg hkmr]
            exact List.mem_toFinset.2 (List.mem_map.2 ⟨k, hk, ho.trans heq⟩)
      have hnotin : s.next ∉ ((List.range' 1 N).map s.owner).toFinset \
          {s.owner t.2.1, s.owner t.2.2} := by
        intro hmem
        rcases Finset.mem_sdiff.1 hmem with ⟨h1, _⟩
        rcases List.mem_map.1 (List.mem_toFinset.1 h1) with ⟨k, hk, heq⟩
        rcases List.mem_range'_1.1 hk with ⟨hk1, hk2'⟩
        have := hI.own_lt k hk1 (by omega)
        omega
      rw [himage, Finset.sum_insert hnotin]
      have harena_next : (applyMerge s r).arena s.next = r := by
        show (if s.next = s.next then r else _) = r
        rw [if_pos rfl]
      rw [harena_next]
      have hsdiff_eq : ∑ rid ∈ ((List.range' 1 N).map s.owner).toFinset \
            {s.owner t.2.1, s.owner t.2.2},
            routeCost c ((applyMerge s r).arena rid) =
          ∑ rid ∈ ((List.range' 1 N).map s.owner).toFinset \
            {s.owner t.2.1, s.owner t.2.2},
            routeCost c (s.arena rid) := by
        refine Finset.sum_congr rfl ?_
        intro rid hrid
        rcases Finset.mem_sdiff.1 hrid with ⟨h1, _⟩
        rcases List.mem_map.1 (List.mem_toFinset.1 h1) with ⟨k, hk, heq⟩
        rcases List.mem_range'_1.1 hk with ⟨hk1, hk2'⟩
        have hlt : rid < s.next := heq ▸ hI.own_lt k hk1 (by omega)
        have harena : (applyMerge s r).arena rid = s.arena rid := by
          show (if rid = s.next then r else _) = _
          rw [if_neg (Nat.ne_of_lt hlt)]
        rw [harena]
      rw [hsdiff_eq]
      have hsub : ({s.owner t.2.1, s.owner t.2.2} : Finset Nat) ⊆
          ((List.range' 1 N).map s.owner).toFinset := by
        intro rid hrid
        rcases Finset.mem_insert.1 hrid with rfl | hrid
        · exact List.mem_toFinset.2 (List.mem_map.2
            ⟨t.2.1, List.mem_range'_1.2 ⟨hi1, by omega⟩, rfl⟩)
        · rcases Finset.mem_singleton.1 hrid with rfl
          exact List.mem_toFinset.2 (List.mem_map.2
            ⟨t.2.2, List.mem_range'_1.2 ⟨hj1, by omega⟩, rfl⟩)
      rw [← Finset.sum_sdiff hsub, Finset.sum_pair hne, hrc]
      have hs : 0 < c 0 t.2.1 + c 0 t.2.2 - c t.2.1 t.2.2 := by
        rw [← hval]
        exact hpos
      linarith
  · exact le_refl _
  · exact le_refl _

theorem stateCost_run_le (c : Cost) (N : Nat) (Q : Int)
    (cands : List (Int × Nat × Nat)) :
    ∀ s : MergeState, Inv N Q s → (∀ t ∈ cands, validCand c N t) →
      (∀ x y, c x y = c y x) →
      stateCost c N (runMerges Q s cands) ≤ stateCost c N s := by
  induction cands with
  | nil => intro s _ _ _; exact le_refl _
  | cons t ts ih =>
    intro s hI hv hsym
    show stateCost c N (runMerges Q (mergeStep Q s t) ts) ≤ _
    refine le_trans
      (ih _ (inv_step N Q s t hI (hv t (List.mem_cons_self t ts)).1)
        (fun u hu => hv u (List.mem_cons_of_mem t hu)) hsym) ?_
    exact stateCost_step_le c N Q s t hsym hI (hv t (List.mem_cons_self t ts))

/-! ### Endpoint characterisation of the merge cases -/

/-- Modelled from the spec: a customer is an endpoint of its route when
it is the first or the last customer, i.e. adjacent to a depot entry. -/
def isEndpoint (x : Nat) (l : List Nat) : Prop :=
  second l = x ∨ secondLast l = x

/-- Modelled from the spec: the splice each of the four endpoint
configurations produces (tail–head, head–head with `routeA` reversed,
tail–tail with `routeB` reversed, head–tail), checked in the source's
order. -/
def claimSplice (a b : List Nat) (i j : Nat) : List Nat :=
  if secondLast a = i ∧ second b = j then a.dropLast ++ b.tail
  else if second a = i ∧ second b = j then a.reverse.dropLast ++ b.tail
  else if secondLast a = i ∧ secondLast b = j then a.dropLast ++ b.reverse.tail
  else b.dropLast ++ a.tail

/-- C2: for a candidate pair that passes the distinct-route and capacity
checks, the engine merges exactly when both customers are endpoints of
their routes, applying the configuration's splice, and otherwise leaves
the state unchanged. -/
theorem claim_endpoint_merge (Q : Int) (s : MergeState) (v : Int) (i j : Nat)
    (hne : s.owner i ≠ s.owner j)
    (hcap : load (s.arena (s.owner i)) + load (s.arena (s.owner j)) ≤ Q) :
    ((isEndpoint i (s.arena (s.owner i)) ∧ isEndpoint j (s.arena (s.owner j))) →
      mergeStep Q s (v, i, j) = applyMerge s
        (claimSplice (s.arena (s.owner i)) (s.arena (s.owner j)) i j)) ∧
    (¬(isEndpoint i (s.arena (s.owner i)) ∧
        isEndpoint j (s.arena (s.owner j))) →
      mergeStep Q s (v, i, j) = s) := by
  have hms : mergeStep Q s (v, i, j) =
      match newRouteOf (s.arena (s.owner i)) (s.arena (s.owner j)) i j with
      | some r => applyMerge s r
      | none => s := by
    show (if s.owner i ≠ s.owner j then
        if load (s.arena (s.owner i)) + load (s.arena (s.owner j)) ≤ Q then
          match newRouteOf (s.arena (s.owner i)) (s.arena (s.owner j)) i j with
          | some r => applyMerge s r
          | none => s
        else s
      else s) = _
    rw [if_pos hne, if_pos hcap]
  rw [hms]
  unfold claimSplice newRouteOf
  by_cases h1 : secondLast (s.arena (s.owner i)) = i ∧
      second (s.arena (s.owner j)) = j
  · rw [if_pos h1, if_pos h1]
    exact ⟨fun _ => rfl, fun hcon => absurd ⟨Or.inr h1.1, Or.inl h1.2⟩ hcon⟩
  · rw [if_neg h1, if_neg h1]
    by_cases h2 : second (s.arena (s.owner i)) = i ∧
        second (s.arena (s.owner j)) = j
    · rw [if_pos h2, if_pos h2]
      exact ⟨fun _ => rfl, fun hcon => absurd ⟨Or.inl h2.1, Or.inl h2.2⟩ hcon⟩
    · rw [if_neg h2, if_neg h2]
      by_cases h3 : secondLast (s.arena (s.owner i)) = i ∧
          secondLast (s.arena (s.owner j)) = j
      · rw [if_pos h3, if_pos h3]
        exact ⟨fun _ => rfl, fun hcon => absurd ⟨Or.inr h3.1, Or.inr h3.2⟩ hcon⟩
      · rw [if_neg h3, if_neg h3]
        by_cases h4 : second (s.arena (s.owner i)) = i ∧
            secondLast (s.arena (s.owner j)) = j
        · rw [if_pos h4]
          exact ⟨fun _ => rfl,
            fun hcon => absurd ⟨Or.inl h4.1, Or.inr h4.2⟩ hcon⟩
        · rw [if_neg h4]
          constructor
          · intro hep
            exfalso
            rcases hep with ⟨hei, hej⟩
            rcases hei with hi | hi <;> rcases hej with hj | hj
            · exact h2 ⟨hi, hj⟩
            · exact h4 ⟨hi, hj⟩
            · exact h1 ⟨hi, hj⟩
            · exact h3 ⟨hi, hj⟩
          · intro _
            rfl

/-- C2 witness: the Scenario A first candidate (1, 2) at the initial
state passes both checks; the theorem applies there. -/
theorem claim_endpoint_merge_witness :
    ((isEndpoint 1 ((initState 2).arena ((initState 2).owner 1)) ∧
        isEndpoint 2 ((initState 2).arena ((initState 2).owner 2))) →
      mergeStep 5 (initState 2) (15, 1, 2) = applyMerge (initState 2)
        (claimSplice ((initState 2).arena ((initState 2).owner 1))
          ((initState 2).arena ((initState 2).owner 2)) 1 2)) ∧
    (¬(isEndpoint 1 ((initState 2).arena ((initState 2).owner 1)) ∧
        isEndpoint 2 ((initState 2).arena ((initState 2).owner 2))) →
      mergeStep 5 (initState 2) (15, 1, 2) = initState 2) :=
  claim_endpoint_merge 5 (initState 2) 15 1 2 (by decide) (by decide)

/-! ### The claim theorems -/

/-- C1: Scenario A (`N = 2`, `Q = 5`, `cost[0][1] = cost[0][2] = 10`,
`cost[1][2] = 5`): the merge engine produces exactly one route,
`[0, 1, 2, 0]`, of total cost 25, versus 40 for the two unmerged
singletons. -/
theorem claim_scenarioA :
    getBaselineSolution cA 2 5 = [[0, 1, 2, 0]] ∧
      totalCost cA (getBaselineSolution cA 2 5) = 25 ∧
      totalCost cA (initialRoutes 2) = 40 :=
  ⟨by decide, by decide, by decide⟩

/-- C3: partition invariant — after any prefix of the candidate list,
each customer `1..N` belongs to exactly one live route, and in the
final deduplicated output every customer appears in exactly one route
exactly once. -/
theorem claim_partition (c : Cost) (N : Nat) (Q : Int) :
    (∀ pre suf, savingsSortedF c N = pre ++ suf →
      ∀ k, 1 ≤ k → k ≤ N →
        ExactlyOne N (runMerges Q (initState N) pre) k) ∧
    (∀ k, 1 ≤ k → k ≤ N →
      ((getBaselineSolution c N Q).map (fun r => r.count k)).sum = 1) := by
  constructor
  · intro pre suf hsplit k hk1 hk2
    refine exactlyOne_of_inv N Q _
      (inv_run N Q pre (initState N) (inv_init N Q) ?_) k hk1 hk2
    intro u hu
    have hu2 : u ∈ savingsSortedF c N := by
      rw [hsplit]
      exact List.mem_append.2 (Or.inl hu)
    exact (validCand_of_mem c N u hu2).1
  · intro k hk1 hk2
    exact count_sum_one N Q _
      (inv_run N Q (savingsSortedF c N) (initState N) (inv_init N Q)
        (fun u hu => (validCand_of_mem c N u hu).1)) k hk1 hk2

/-- C3 witness: in Scenario A, customer 1 appears exactly once across
the output routes. -/
theorem claim_partition_witness :
    ((getBaselineSolution cA 2 5).map (fun r => r.count 1)).sum = 1 :=
  (claim_partition cA 2 5).2 1 (by decide) (by decide)

/-- C4: capacity invariant — with `Q ≥ 1`, every route of the final
output has load at most `Q`. -/
theorem claim_capacity (c : Cost) (N : Nat) (Q : Int) (hQ : 1 ≤ Q) :
    ∀ r ∈ getBaselineSolution c N Q, load r ≤ Q := by
  intro r hr
  have hI := inv_run N Q (savingsSortedF c N) (initState N) (inv_init N Q)
    (fun u hu => (validCand_of_mem c N u hu).1)
  rcases (mem_finalRoutes N _ r).1 hr with ⟨k, hk1, hk2, rfl⟩
  rw [hI.form k hk1 hk2, load_route]
  have h := hI.load_le k hk1 hk2
  rwa [max_eq_left hQ] at h

/-- C4 witness: the single Scenario A output route has load ≤ 5. -/
theorem claim_capacity_witness : load [0, 1, 2, 0] ≤ 5 :=
  claim_capacity cA 2 5 (by decide) [0, 1, 2, 0] (by decide)

/-- C5: depot boundary — every final route is `0 :: m ++ [0]` with a
nonempty interior not containing 0, and the initial singletons have the
same shape. -/
theorem claim_depot_boundary (c : Cost) (N : Nat) (Q : Int) :
    (∀ r ∈ getBaselineSolution c N Q,
      r = 0 :: interior r ++ [0] ∧ interior r ≠ [] ∧ 0 ∉ interior r) ∧
    (∀ r ∈ initialRoutes N, r = 0 :: interior r ++ [0] ∧ 0 ∉ interior r) := by
  constructor
  · intro r hr
    have hI := inv_run N Q (savingsSortedF c N) (initState N) (inv_init N Q)
      (fun u hu => (validCand_of_mem c N u hu).1)
    rcases (mem_finalRoutes N _ r).1 hr with ⟨k, hk1, hk2, rfl⟩
    refine ⟨hI.form k hk1 hk2, hI.int_ne k hk1 hk2, ?_⟩
    intro h0
    have := (hI.int_range k hk1 hk2 0 h0).1
    omega
  · intro r hr
    rcases List.mem_map.1 hr with ⟨k, hk, rfl⟩
    rcases List.mem_range'_1.1 hk with ⟨h1, _⟩
    refine ⟨rfl, ?_⟩
    intro h0
    have h2 : (0 : Nat) = k := List.mem_singleton.1 h0
    omega

/-- C5 witness: the Scenario A output route is depot-bounded. -/
theorem claim_depot_boundary_witness :
    [0, 1, 2, 0] = 0 :: interior [0, 1, 2, 0] ++ [0] ∧
      interior [0, 1, 2, 0] ≠ [] ∧ 0 ∉ interior [0, 1, 2, 0] :=
  (claim_depot_boundary cA 2 5).1 [0, 1, 2, 0] (by decide)

/-- C6 counterexample: for the asymmetric matrix `cAsym` the final cost
(151) exceeds the initial singleton cost (103), refuting monotone
non-worsening for arbitrary (asymmetric) matrices. -/
theorem claim_cost_counterexample :
    ¬ totalCost cAsym (getBaselineSolution cAsym 2 8) ≤
        totalCost cAsym (initialRoutes 2) := by decide

/-- C6 as amended: for every symmetric cost matrix, the total cost of
the final output is at most the total cost of the `N` initial singleton
round trips. -/
theorem claim_cost_monotone_sym (c : Cost) (N : Nat) (Q : Int)
    (hsym : ∀ x y, c x y = c y x) :
    totalCost c (getBaselineSolution c N Q) ≤
      totalCost c (initialRoutes N) := by
  have h2 := stateCost_run_le c N Q (savingsSortedF c N) (initState N)
    (inv_init N Q) (fun u hu => validCand_of_mem c N u hu) hsym
  have h3 : stateCost c N (initState N) = totalCost c (initialRoutes N) := by
    unfold stateCost
    rw [finalRoutes_init]
  rw [← h3]
  exact h2

/-- C6 witness: the amended theorem applied to the symmetric Scenario A
matrix. -/
theorem claim_cost_monotone_sym_witness :
    totalCost cA (getBaselineSolution cA 2 5) ≤
      totalCost cA (initialRoutes 2) :=
  claim_cost_monotone_sym cA 2 5 (fun x y => symOf_comm cABase x y)

/-- Two candidates related by the deterministic order are distinct. -/
theorem savingsOrder_ne (x y : Int × Nat × Nat) (h : savingsOrder x y) :
    x ≠ y := by
  rintro rfl
  rcases h with h | ⟨_, h⟩
  · exact lt_irrefl _ h
  · rcases h with h | ⟨_, h⟩
    · exact lt_irrefl _ h
    · exact lt_irrefl _ h

/-- C7: the candidate list holds one entry per pair `1 ≤ A < B ≤ N`
with value `cost[0][A] + cost[0][B] - cost[A][B]`, sorted by value
descending with ties in ascending pair order; `final_baseline_solver.py`
omits non-positive values, `baseline_solver.py` keeps them.  Both lists
are pure functions of the matrix (they are `def`s). -/
theorem claim_savings_spec (c : Cost) (N : Nat) :
    ((savingsSortedF c N).Pairwise savingsOrder ∧
      (savingsSortedF c N).Nodup ∧
      ∀ v i j, ((v, i, j) ∈ savingsSortedF c N ↔
        1 ≤ i ∧ i < j ∧ j ≤ N ∧ v = c 0 i + c 0 j - c i j ∧ 0 < v)) ∧
    ((savingsSortedB c N).Pairwise savingsOrder ∧
      (savingsSortedB c N).Nodup ∧
      ∀ v i j, ((v, i, j) ∈ savingsSortedB c N ↔
        1 ≤ i ∧ i < j ∧ j ≤ N ∧ v = c 0 i + c 0 j - c i j)) := by
  have hpwF : (savingsSortedF c N).Pairwise savingsOrder :=
    sortSavings_pairwise _ (List.Pairwise.sublist (List.filter_sublist _)
      (pairwise_savingsUnsorted c N))
  have hpwB : (savingsSortedB c N).Pairwise savingsOrder :=
    sortSavings_pairwise _ (pairwise_savingsUnsorted c N)
  refine ⟨⟨hpwF, hpwF.imp (fun hab => savingsOrder_ne _ _ hab), ?_⟩,
    hpwB, hpwB.imp (fun hab => savingsOrder_ne _ _ hab), ?_⟩
  · intro v i j
    rw [mem_savingsSortedF]
    constructor
    · rintro ⟨⟨i2, j2, h1, h2, h3, heq⟩, h4⟩
      rw [Prod.mk.injEq, Prod.mk.injEq] at heq
      obtain ⟨hv, hi, hj⟩ := heq
      subst hi
      subst hj
      exact ⟨h1, h2, h3, hv, h4⟩
    · rintro ⟨h1, h2, h3, h4, h5⟩
      exact ⟨⟨i, j, h1, h2, h3, by rw [h4]⟩, h5⟩
  · intro v i j
    rw [mem_savingsSortedB]
    constructor
    · rintro ⟨i2, j2, h1, h2, h3, heq⟩
      rw [Prod.mk.injEq, Prod.mk.injEq] at heq
      obtain ⟨hv, hi, hj⟩ := heq
      subst hi
      subst hj
      exact ⟨h1, h2, h3, hv⟩
    · rintro ⟨h1, h2, h3, h4⟩
      exact ⟨i, j, h1, h2, h3, by rw [h4]⟩

/-- C7 witness: the Scenario A candidate list contains (15, 1, 2). -/
theorem claim_savings_spec_witness : (15, 1, 2) ∈ savingsSortedF cA 2 :=
  ((claim_savings_spec cA 2).1.2.2 15 1 2).mpr (by decide)

/-- C8: with any capacity below 1 the output is exactly the `N`
singleton routes, and Scenario B (`N = 2`, `Q = 1`) yields the two
singleton routes of total cost 40. -/
theorem claim_no_merge_small_Q :
    (∀ (c : Cost) (N : Nat) (Q : Int), Q < 1 →
      getBaselineSolution c N Q = initialRoutes N) ∧
    getBaselineSolution cA 2 1 = [[0, 1, 0], [0, 2, 0]] ∧
    totalCost cA (getBaselineSolution cA 2 1) = 40 := by
  refine ⟨?_, by decide, by decide⟩
  intro c N Q hQ
  show finalRoutes N (runMerges Q (initState N) (savingsSortedF c N)) = _
  rw [runMerges_small_Q N Q hQ _ (fun u hu => (validCand_of_mem c N u hu).1)]
  exact finalRoutes_init N

/-- C8 witness: at `Q = 0` the output is the initial singletons. -/
theorem claim_no_merge_small_Q_witness :
    getBaselineSolution cA 2 0 = initialRoutes 2 :=
  claim_no_merge_small_Q.1 cA 2 0 (by decide)

/-- C9 (code bug): the solver performs no input validation — called
with the malformed capacity `Q = 0` on the Scenario A matrix it
silently runs the merge loop and returns the two singleton routes with
no error signal; the source has no validation or exception path at
all. -/
theorem claim_no_validation :
    getBaselineSolution cA 2 0 = [[0, 1, 0], [0, 2, 0]] := by decide

/-- C10 (code bug): the two implementations diverge — the
`baseline_solver.py` loop never merges (its `find_route` early-returns
`None`), always producing the `N` singletons, while
`final_baseline_solver.py` merges Scenario A into `[0, 1, 2, 0]`. -/
theorem claim_impl_divergence :
    (∀ (c : Cost) (N : Nat) (Q : Int),
      baselineSolver c N Q = initialRoutes N) ∧
    baselineSolver cA 2 5 = [[0, 1, 0], [0, 2, 0]] ∧
    getBaselineSolution cA 2 5 = [[0, 1, 2, 0]] :=
  ⟨baselineSolver_eq, by decide, by decide⟩

end LogiSwift
